import Mathlib

/-!
Verification development for the textify rule-resolution and directory-walk
engine.  The Go sources are shallowly embedded:

* `internal/config` (textify.yaml variant): `DirRule`, `Config`, `DefaultConfig`.
* `internal/config/discovery.go`: `Discover`, `deepScanExtensions`.
* `internal/scanner/scanner.go`: `Scan`, `walk`, `shouldAlwaysExclude`,
  `checkPatternMatch`, `contains`, `appendFileContent`.
* `internal/fileutil/binary.go`: `IsBinary`.

Modelling conventions:
* The filesystem is a finite tree `FSNode`; a directory carries
  `Option (List (String × FSNode))` — `none` models an `os.ReadDir` failure,
  mirroring the only fatal error class of the walk.  A file carries an
  `okRead` flag (`false` models an `os.Open` failure) and its bytes as
  `List Nat`.
* `os.ReadDir` of a path is modelled by handing the walk the directory's
  listing directly; relative slash-joined paths are threaded instead of
  recomputing `filepath.Rel`/`filepath.Join`, which for clean relative
  paths agree with `joinRel` below.
* The go-gitignore matcher is an opaque collaborator in the source and is
  abstracted as a parameter `m : String → Bool → Bool` (path, isDir).
* `filepath.Match` is Go standard library glob matching whose error return
  the source discards; it is abstracted as `g : String → String → Bool`
  (pattern, name).
* Writer output is modelled as the ordered list of emitted file records;
  errors are `Option`-failures (`none` = the walk aborted).
-/

namespace Textify

/-- Byte strings are lists of naturals (each intended `< 256`). -/
abbrev Bytes := List Nat

/-- `internal/config` (yaml variant): `DirRule` — filtering rules for one
directory.  Omitted YAML lists unmarshal to nil slices, i.e. `[]`. -/
structure DirRule where
  Enabled : Bool
  Extensions : List String
  ExcludeExtensions : List String
  Include : List String
  Exclude : List String
deriving Repr, DecidableEq

/-- `internal/config`: `Config` — the textify.yaml top level.  The Go
`map[string]DirRule` is modelled as its lookup function (`none` = key
absent); a nil map is the constantly-`none` function. -/
structure Config where
  OutputFile : String
  Dirs : String → Option DirRule

/-- `internal/config`: `DefaultConfig` — barebones config. -/
def DefaultConfig : Config :=
  { OutputFile := "codebase.txt", Dirs := fun _ => none }

/-- A filesystem tree node.  `file okRead content`: a regular file whose
`os.Open` succeeds iff `okRead`.  `dir listing`: a directory whose
`os.ReadDir` yields `listing` (`none` = enumeration failure). -/
inductive FSNode where
  | file (okRead : Bool) (content : Bytes)
  | dir (listing : Option (List (String × FSNode)))
deriving Repr

/-- `entry.IsDir()`. -/
def FSNode.isDir : FSNode → Bool
  | .file _ _ => false
  | .dir _ => true

/-- A walk-engine output record: relative path plus the file bytes. -/
structure FileRec where
  path : String
  content : Bytes
deriving Repr, DecidableEq

/-- `filepath.Join` then `filepath.Rel`+`filepath.ToSlash` relative to the
root, for a child `name` of the directory at relative path `relDir`
(root is the sentinel `"."`). -/
def joinRel (relDir name : String) : String :=
  if relDir = "." then name else relDir ++ "/" ++ name

/-- Go `filepath.Ext`: the suffix beginning at the final dot, including the
dot; `""` when the name has no dot.  (Entry names contain no path
separator, so the separator scan of the Go source is vacuous here.) -/
def goExt (name : String) : String :=
  if (name.data.reverse.takeWhile (fun c => c ≠ '.')).length
      = name.data.reverse.length then ""
  else String.mk ('.' :: (name.data.reverse.takeWhile (fun c => c ≠ '.')).reverse)

/-- Go `strings.TrimPrefix(s, ".")`: drop one leading dot if present. -/
def trimDot (s : String) : String :=
  match s.data with
  | '.' :: rest => String.mk rest
  | _ => s

/-- `scanner.go` `shouldAlwaysExclude`: hardcoded exclusions for tool
integrity. -/
def shouldAlwaysExclude (name : String) : Bool :=
  name == ".git" || name == "textify.yaml" || name == "codebase.txt"

/-- `scanner.go` `checkPatternMatch`: the entry matches when any pattern
glob-matches the bare name, glob-matches the root-relative path, or equals
the relative path outright.  `g` abstracts `filepath.Match`. -/
def checkPatternMatch (g : String → String → Bool) (name relPath : String)
    (patterns : List String) : Bool :=
  patterns.any fun p => g p name || g p relPath || p == relPath

/-- `scanner.go` `contains`. -/
def contains (slice : List String) (item : String) : Bool :=
  slice.any (· == item)

mutual
/-- Go `utf8.Valid`, ported from its `first`/`acceptRanges` tables: an
ASCII byte stands alone; the leading-byte ranges `0xC2..0xDF`, `0xE0`,
`0xE1..0xEC`/`0xEE`/`0xEF`, `0xED`, `0xF0`, `0xF1..0xF3` and `0xF4` take
one, two or three continuation bytes, with the table's accept range
(`accept0`..`accept4`) constraining the first continuation byte to rule
out overlong encodings, surrogates and values above `U+10FFFF`; leading
bytes `0x80..0xC1` and `0xF5..0xFF` are invalid. -/
def utf8Valid : Bytes → Bool
  | [] => true
  | b :: rest =>
    if b < 0x80 then utf8Valid rest
    else if 0xC2 ≤ b && b ≤ 0xDF then utf8Cont1 0x80 0xBF rest
    else if b == 0xE0 then utf8Cont2 0xA0 0xBF rest
    else if (0xE1 ≤ b && b ≤ 0xEC) || b == 0xEE || b == 0xEF then
      utf8Cont2 0x80 0xBF rest
    else if b == 0xED then utf8Cont2 0x80 0x9F rest
    else if b == 0xF0 then utf8Cont3 0x90 0xBF rest
    else if 0xF1 ≤ b && b ≤ 0xF3 then utf8Cont3 0x80 0xBF rest
    else if b == 0xF4 then utf8Cont3 0x80 0x8F rest
    else false

/-- One continuation byte in `lo..hi`, then a fresh character. -/
def utf8Cont1 (lo hi : Nat) : Bytes → Bool
  | c :: rest => (lo ≤ c && c ≤ hi) && utf8Valid rest
  | [] => false

/-- A continuation byte in `lo..hi`, then one standard continuation. -/
def utf8Cont2 (lo hi : Nat) : Bytes → Bool
  | c :: rest => (lo ≤ c && c ≤ hi) && utf8Cont1 0x80 0xBF rest
  | [] => false

/-- A continuation byte in `lo..hi`, then two standard continuations. -/
def utf8Cont3 (lo hi : Nat) : Bytes → Bool
  | c :: rest => (lo ≤ c && c ≤ hi) && utf8Cont2 0x80 0xBF rest
  | [] => false
end

/-- The NUL scan of `IsBinary`. -/
def hasNul (l : Bytes) : Bool := l.any (· == 0)

/-- `internal/fileutil/binary.go` `IsBinary`: open the file (`okRead`
models the open/read succeeding), read up to the first 512 bytes, report
text for an empty file, binary on a NUL byte or invalid UTF-8. -/
def IsBinary (okRead : Bool) (content : Bytes) : Except Unit Bool :=
  if !okRead then .error ()
  else
    let c := content.take 512
    if c.length = 0 then .ok false
    else if hasNul c then .ok true
    else if !utf8Valid c then .ok true
    else .ok false

/-- `scanner.go` `appendFileContent`: skip silently when `IsBinary` errors
or reports binary; otherwise emit the record.  (The caller discards any
error it returns, so the model is total; the emitted header/separator
formatting is not modelled, only the record sequence.) -/
def appendFileContent (okRead : Bool) (content : Bytes) (relPath : String) :
    List FileRec :=
  match IsBinary okRead content with
  | .error _ => []
  | .ok true => []
  | .ok false => [⟨relPath, content⟩]

/-- `scanner.go` lines 49–51: an explicit Rule Store entry for the current
directory wholesale-replaces the inherited rule. -/
def effectiveRule (dirRules : String → Option DirRule) (relDir : String)
    (inherited : DirRule) : DirRule :=
  match dirRules relDir with
  | some r => r
  | none => inherited

/-- Sequence two walk results: the Go loop returns the first child error
immediately, otherwise appends the child's records before the rest. -/
def optAppend (a b : Option (List FileRec)) : Option (List FileRec) :=
  match a, b with
  | some x, some y => some (x ++ y)
  | _, _ => none

mutual
/-- `scanner.go` `walk` for the directory node at relative path `relDir`:
resolve the effective rule, stop (emitting nothing) when disabled, fail
when `os.ReadDir` cannot enumerate the children (a `none` listing, or the
node not being a directory at all), otherwise process the children in
order. -/
def walk (relDir : String) (node : FSNode)
    (dirRules : String → Option DirRule) (inherited : DirRule)
    (m : String → Bool → Bool) (g : String → String → Bool) :
    Option (List FileRec) :=
  let currentRule := effectiveRule dirRules relDir inherited
  if !currentRule.Enabled then some []
  else
    match node with
    | .file _ _ => none
    | .dir none => none
    | .dir (some entries) => walkEntries relDir entries currentRule dirRules m g

/-- The per-child loop body of `scanner.go` `walk` (lines 64–139). -/
def walkEntries (relDir : String) (entries : List (String × FSNode))
    (currentRule : DirRule) (dirRules : String → Option DirRule)
    (m : String → Bool → Bool) (g : String → String → Bool) :
    Option (List FileRec) :=
  match entries with
  | [] => some []
  | (name, child) :: rest =>
    let relEntry := joinRel relDir name
    let ext := trimDot (goExt name)
    if shouldAlwaysExclude name then
      walkEntries relDir rest currentRule dirRules m g
    else if checkPatternMatch g name relEntry currentRule.Exclude then
      walkEntries relDir rest currentRule dirRules m g
    else
      let isForced := checkPatternMatch g name relEntry currentRule.Include
      match child with
      | .dir _ =>
        if (match dirRules relEntry with
            | some subRule => !subRule.Enabled
            | none => false) then
          walkEntries relDir rest currentRule dirRules m g
        else if !isForced && m relEntry true then
          walkEntries relDir rest currentRule dirRules m g
        else
          optAppend (walk relEntry child dirRules currentRule m g)
            (walkEntries relDir rest currentRule dirRules m g)
      | .file okRead content =>
        if !isForced && m relEntry false then
          walkEntries relDir rest currentRule dirRules m g
        else if !isForced && !currentRule.ExcludeExtensions.isEmpty
            && contains currentRule.ExcludeExtensions ext then
          walkEntries relDir rest currentRule dirRules m g
        else if !isForced && !currentRule.Extensions.isEmpty
            && !contains currentRule.Extensions ext then
          walkEntries relDir rest currentRule dirRules m g
        else
          optAppend (some (appendFileContent okRead content relEntry))
            (walkEntries relDir rest currentRule dirRules m g)
end

/-- The fallback root rule of `Scan`: enabled, no extension restriction
(the remaining slices are Go nil slices). -/
def defaultRootRule : DirRule :=
  { Enabled := true, Extensions := [], ExcludeExtensions := [],
    Include := [], Exclude := [] }

/-- `scanner.go` `Scan`: look up the root rule (defaulting when `"."` is
absent) and walk the root directory node. -/
def Scan (rootNode : FSNode) (cfg : Config)
    (m : String → Bool → Bool) (g : String → String → Bool) :
    Option (List FileRec) :=
  let rootRule :=
    match cfg.Dirs "." with
    | some r => r
    | none => defaultRootRule
  walk "." rootNode cfg.Dirs rootRule m g

/-- The extension-collection step of `deepScanExtensions` (discovery.go
lines 105–111): `ext := filepath.Ext(d.Name())`, collect
`strings.TrimPrefix(ext, ".")` when `len(ext) > 1`. -/
def collectExt (name : String) : Option String :=
  if (goExt name).length > 1 then some (trimDot (goExt name)) else none

mutual
/-- `internal/config/discovery.go` `deepScanExtensions`, i.e. the
`filepath.WalkDir` callback applied to the node named `name` at relative
path `rel`: skip `.git` directories and ignore-matched subtrees, swallow
enumeration errors (a `none` listing contributes nothing), and collect
`collectExt` of every remaining file name.  The Go version stores the
extensions in a map (set) iterated in unspecified order; the model returns
the occurrence list, so only membership is Go-faithful. -/
def deepScanExtensions (rel name : String) (node : FSNode)
    (m : String → Bool → Bool) : List String :=
  match node with
  | .file _ _ =>
    if m rel false then []
    else
      match collectExt name with
      | some e => [e]
      | none => []
  | .dir listing =>
    if name == ".git" then []
    else if m rel true then []
    else
      match listing with
      | none => []
      | some children => deepScanExtensionsList rel children m

/-- The recursion of `filepath.WalkDir` over a directory's children, in
listing order. -/
def deepScanExtensionsList (rel : String)
    (children : List (String × FSNode)) (m : String → Bool → Bool) :
    List String :=
  match children with
  | [] => []
  | (n, c) :: rest =>
    deepScanExtensions (joinRel rel n) n c m ++ deepScanExtensionsList rel rest m
end

/-- Step 1 of `Discover` (discovery.go lines 30–42): update the root `"."`
rule.  An existing root rule keeps all its fields; only an empty extension
list is filled in with the deep-scanned `rootExtensions`.  A missing root
rule becomes a fresh enabled rule with those extensions. -/
def discoverRootDirs (cfg : Config) (rootExtensions : List String) :
    String → Option DirRule :=
  match cfg.Dirs "." with
  | some val =>
    if val.Extensions.isEmpty then
      fun k => if k == "." then some { val with Extensions := rootExtensions }
               else cfg.Dirs k
    else cfg.Dirs
  | none =>
    fun k => if k == "." then
               some { Enabled := true, Extensions := rootExtensions,
                      ExcludeExtensions := [], Include := [], Exclude := [] }
             else cfg.Dirs k

/-- The loop body of step 2 of `Discover` (discovery.go lines 50–78):
skip non-directories, `.git`, ignore-matched children, and names already
present in the store; otherwise insert a fresh enabled rule with the
child subtree's deep-scanned extensions. -/
def discoverStep (m : String → Bool → Bool)
    (dirs : String → Option DirRule) (entry : String × FSNode) :
    String → Option DirRule :=
  let name := entry.1
  let child := entry.2
  if !child.isDir || name == ".git" then dirs
  else if m name true then dirs
  else if (dirs name).isSome then dirs
  else fun k =>
    if k == name then
      some { Enabled := true,
             Extensions := deepScanExtensions name name child m,
             ExcludeExtensions := [], Include := [], Exclude := [] }
    else dirs k

/-- `internal/config/discovery.go` `Discover`: start from the existing
config (or `DefaultConfig`), deep-scan the whole tree for the root rule's
extensions and apply `discoverRootDirs`, then fold `discoverStep` over the
root's immediate children.  Fails exactly when the root's immediate
children cannot be listed.  The root node of the scan is handed to
`deepScanExtensions` under a neutral name `""` (the project directory's
base name, never `".git"` here). -/
def Discover (rootNode : FSNode) (existing : Option Config)
    (m : String → Bool → Bool) : Option Config :=
  let cfg :=
    match existing with
    | some c => c
    | none => DefaultConfig
  let rootExtensions := deepScanExtensions "." "" rootNode m
  let dirs1 := discoverRootDirs cfg rootExtensions
  match rootNode with
  | .file _ _ => none
  | .dir none => none
  | .dir (some entries) =>
    some { OutputFile := cfg.OutputFile,
           Dirs := entries.foldl (discoverStep m) dirs1 }

/-!
Spec-side definitions.  These are *not* translated from the source; they
formalise the specification's own words so that source-derived behaviour
can be compared against them.
-/

/-- Spec-side: the characters after the last `'.'` of a filename, `none`
when the name contains no dot at all. -/
def afterLastDot (name : String) : Option String :=
  if name.data.contains '.' then
    some (String.mk ((name.data.reverse.takeWhile (fun c => c ≠ '.')).reverse))
  else none

/-- Spec-side: the standard UTF-8 encoding of a code point `n`. -/
def encodeUtf8 (n : Nat) : Bytes :=
  if n < 0x80 then [n]
  else if n < 0x800 then [0xC0 + n / 64, 0x80 + n % 64]
  else if n < 0x10000 then
    [0xE0 + n / 4096, 0x80 + n / 64 % 64, 0x80 + n % 64]
  else
    [0xF0 + n / 262144, 0x80 + n / 4096 % 64, 0x80 + n / 64 % 64, 0x80 + n % 64]

/-- Spec-side: a Unicode scalar value — in range and not a surrogate. -/
def IsScalar (n : Nat) : Prop := n < 0x110000 ∧ ¬(0xD800 ≤ n ∧ n ≤ 0xDFFF)

/-- Spec-side: the byte strings that are concatenations of UTF-8
encodings of Unicode scalar values — valid UTF-8 text in the sense of the
Unicode standard. -/
inductive Utf8Encoding : Bytes → Prop where
  | nil : Utf8Encoding []
  | cons (n : Nat) (rest : Bytes) : IsScalar n → Utf8Encoding rest →
      Utf8Encoding (encodeUtf8 n ++ rest)

/-!
Concrete fixtures used by witness and counterexample theorems.
-/

/-- A matcher that ignores nothing (an absent `.gitignore`). -/
def mFalse : String → Bool → Bool := fun _ _ => false

/-- A matcher that ignores everything. -/
def mAll : String → Bool → Bool := fun _ _ => true

/-- A glob oracle behaving as `filepath.Match` does on literal patterns:
exact equality. -/
def gEq : String → String → Bool := fun p s => p == s

/-- A rule whose `Include` and `Exclude` lists both name `a.go`. -/
def ruleBoth : DirRule := ⟨true, [], [], ["a.go"], ["a.go"]⟩

/-- A disabled rule. -/
def ruleOff : DirRule := ⟨false, ["go"], [], [], []⟩

/-- An enabled rule restricted to the `go` extension. -/
def ruleGo : DirRule := ⟨true, ["go"], [], [], []⟩

/-- An empty rule store. -/
def noRules : String → Option DirRule := fun _ => none

/-- A discovery fixture tree: an already-configured `keep` directory and
an undiscovered `new` directory. -/
def rootW : FSNode :=
  .dir (some
    [("keep", .dir (some [("x.go", .file true [104])])),
     ("new", .dir (some [("a.ts", .file true [97])]))])

/-- A discovery fixture config: an explicit rule for `keep` and a root
rule with an empty extension list but a non-trivial block-list. -/
def cfgW : Config :=
  { OutputFile := "out.txt",
    Dirs := fun k =>
      if k = "keep" then some ruleGo
      else if k = "." then some ⟨true, [], ["log"], [], []⟩
      else none }

/-- The config produced by running discovery on the fixture. -/
def discoveredW : Config :=
  (Discover rootW (some cfgW) mFalse).getD ⟨"", noRules⟩

/-!
Theorems.
-/

theorem effectiveRule_idem (dirRules : String → Option DirRule)
    (relDir : String) (inherited : DirRule) :
    effectiveRule dirRules relDir (effectiveRule dirRules relDir inherited)
      = effectiveRule dirRules relDir inherited := by
  unfold effectiveRule
  cases dirRules relDir <;> rfl

theorem effectiveRule_some (dirRules : String → Option DirRule)
    (relDir : String) (inherited r : DirRule)
    (h : dirRules relDir = some r) :
    effectiveRule dirRules relDir inherited = r := by
  unfold effectiveRule
  rw [h]

/-- C1: during the per-child loop, a child whose bare name, root-relative
path, or exact relative path matches one of the active rule's `exclude`
patterns contributes nothing to the walk — the result equals that of the
remaining children alone, so nothing is emitted for the child and, when it
is a directory, it is never recursed into — even when the same child also
matches an `include` pattern (the rule's `Include` list is completely
unconstrained here, as are the ignore matcher and the extension lists). -/
theorem exclude_beats_include (relDir name : String) (child : FSNode)
    (rest : List (String × FSNode)) (rule : DirRule)
    (dirRules : String → Option DirRule)
    (m : String → Bool → Bool) (g : String → String → Bool)
    (hx : checkPatternMatch g name (joinRel relDir name) rule.Exclude = true) :
    walkEntries relDir ((name, child) :: rest) rule dirRules m g
      = walkEntries relDir rest rule dirRules m g := by
  rw [walkEntries]
  by_cases ha : shouldAlwaysExclude name
  · simp [ha]
  · simp [ha, hx]

theorem exclude_beats_include_witness :
    checkPatternMatch gEq "a.go" (joinRel "." "a.go") ruleBoth.Exclude = true ∧
    walkEntries "." [("a.go", .file true [104])] ruleBoth noRules mFalse gEq
      = walkEntries "." [] ruleBoth noRules mFalse gEq :=
  ⟨by decide,
   exclude_beats_include "." "a.go" (.file true [104]) [] ruleBoth noRules
     mFalse gEq (by decide)⟩

/-- C2: a directory whose active rule — the explicit Rule Store entry for
its exact relative path when present, otherwise the inherited rule — is
disabled emits nothing for itself or any descendant (first conjunct, with
every other rule field, the store, the matcher and the glob oracle
unconstrained); moreover a child directory carrying an explicit disabled
rule is skipped at the parent level without recursion, regardless of the
parent rule's `Include`/`Exclude` patterns and of the ignore matcher
(second conjunct). -/
theorem disabled_directory_emits_nothing :
    (∀ (relDir : String) (node : FSNode) (dirRules : String → Option DirRule)
       (inherited : DirRule) (m : String → Bool → Bool)
       (g : String → String → Bool),
      (effectiveRule dirRules relDir inherited).Enabled = false →
      walk relDir node dirRules inherited m g = some []) ∧
    (∀ (relDir name : String) (listing : Option (List (String × FSNode)))
       (rest : List (String × FSNode)) (rule subRule : DirRule)
       (dirRules : String → Option DirRule) (m : String → Bool → Bool)
       (g : String → String → Bool),
      dirRules (joinRel relDir name) = some subRule →
      subRule.Enabled = false →
      walkEntries relDir ((name, FSNode.dir listing) :: rest) rule dirRules m g
        = walkEntries relDir rest rule dirRules m g) := by
  constructor
  · intro relDir node dirRules inherited m g hd
    rw [walk.eq_def]
    simp [hd]
  · intro relDir name listing rest rule subRule dirRules m g hs he
    rw [walkEntries]
    by_cases ha : shouldAlwaysExclude name
    · simp [ha]
    · by_cases hx : checkPatternMatch g name (joinRel relDir name) rule.Exclude
      · simp [ha, hx]
      · simp [ha, hx, hs, he]

theorem disabled_directory_emits_nothing_witness :
    (effectiveRule (fun k => if k = "sub" then some ruleOff else none) "sub"
        ruleGo).Enabled = false ∧
    walk "sub" (.dir (some [("a.go", .file true [104])]))
        (fun k => if k = "sub" then some ruleOff else none) ruleGo mFalse gEq
      = some [] ∧
    (fun k => if k = "sub" then some ruleOff else none) (joinRel "." "sub")
      = some ruleOff ∧
    ruleOff.Enabled = false ∧
    walkEntries "." [("sub", FSNode.dir (some [("a.go", .file true [104])]))]
        ruleGo (fun k => if k = "sub" then some ruleOff else none) mFalse gEq
      = walkEntries "." [] ruleGo
        (fun k => if k = "sub" then some ruleOff else none) mFalse gEq :=
  ⟨by decide,
   disabled_directory_emits_nothing.1 "sub" _ _ ruleGo mFalse gEq (by decide),
   by decide, by decide,
   disabled_directory_emits_nothing.2 "." "sub" _ [] ruleGo ruleOff _ mFalse gEq
     (by decide) (by decide)⟩

/-- C4: rule inheritance is wholesale replacement.  First conjunct: the
walk of any directory behaves exactly as if the inherited rule were the
resolved effective rule, so at most one Directory Rule governs the
subtree at any point.  Second conjunct: when an explicit Rule Store entry
exists for the directory, the inherited rule is entirely irrelevant — any
two inherited rules give identical results, so no field of the parent rule
(in particular its extension allow-list) survives.  Third conjunct: a rule
whose `Extensions` list is empty imposes no extension restriction — a
file child passing the other checks is appended whatever its extension
(the name, hence the extension, is arbitrary here). -/
theorem rule_replacement_wholesale :
    (∀ (relDir : String) (node : FSNode) (dirRules : String → Option DirRule)
       (inherited : DirRule) (m : String → Bool → Bool)
       (g : String → String → Bool),
      walk relDir node dirRules inherited m g
        = walk relDir node dirRules (effectiveRule dirRules relDir inherited) m g) ∧
    (∀ (relDir : String) (node : FSNode) (dirRules : String → Option DirRule)
       (r inh1 inh2 : DirRule) (m : String → Bool → Bool)
       (g : String → String → Bool),
      dirRules relDir = some r →
      walk relDir node dirRules inh1 m g = walk relDir node dirRules inh2 m g) ∧
    (∀ (relDir name : String) (okRead : Bool) (content : Bytes)
       (rest : List (String × FSNode)) (rule : DirRule)
       (dirRules : String → Option DirRule) (m : String → Bool → Bool)
       (g : String → String → Bool),
      rule.Extensions = [] →
      shouldAlwaysExclude name = false →
      checkPatternMatch g name (joinRel relDir name) rule.Exclude = false →
      m (joinRel relDir name) false = false →
      contains rule.ExcludeExtensions (trimDot (goExt name)) = false →
      walkEntries relDir ((name, FSNode.file okRead content) :: rest) rule dirRules m g
        = optAppend (some (appendFileContent okRead content (joinRel relDir name)))
            (walkEntries relDir rest rule dirRules m g)) := by
  refine ⟨?_, ?_, ?_⟩
  · intro relDir node dirRules inherited m g
    conv_lhs => rw [walk.eq_def]
    conv_rhs => rw [walk.eq_def]
    rw [effectiveRule_idem]
  · intro relDir node dirRules r inh1 inh2 m g h
    conv_lhs => rw [walk.eq_def]
    conv_rhs => rw [walk.eq_def]
    rw [effectiveRule_some dirRules relDir inh1 r h,
        effectiveRule_some dirRules relDir inh2 r h]
  · intro relDir name okRead content rest rule dirRules m g hext ha hx hm hb
    rw [walkEntries]
    by_cases hf : checkPatternMatch g name (joinRel relDir name) rule.Include
    · simp [ha, hx, hf]
    · simp [ha, hx, hf, hm, hb, hext]

theorem rule_replacement_wholesale_witness :
    walk "sub" (.dir (some [("a.go", .file true [104])]))
        (fun k => if k = "sub" then some ruleGo else none) ruleOff mFalse gEq
      = walk "sub" (.dir (some [("a.go", .file true [104])]))
        (fun k => if k = "sub" then some ruleGo else none)
        (effectiveRule (fun k => if k = "sub" then some ruleGo else none) "sub"
          ruleOff) mFalse gEq ∧
    (fun k => if k = "sub" then some ruleGo else none) "sub" = some ruleGo ∧
    walk "sub" (.dir (some [("a.go", .file true [104])]))
        (fun k => if k = "sub" then some ruleGo else none) ruleOff mFalse gEq
      = walk "sub" (.dir (some [("a.go", .file true [104])]))
        (fun k => if k = "sub" then some ruleGo else none) ruleBoth mFalse gEq ∧
    defaultRootRule.Extensions = [] ∧
    walkEntries "." [("a.py", FSNode.file true [104])] defaultRootRule noRules
        mFalse gEq
      = optAppend (some (appendFileContent true [104] (joinRel "." "a.py")))
          (walkEntries "." [] defaultRootRule noRules mFalse gEq) :=
  ⟨rule_replacement_wholesale.1 "sub" _ _ ruleOff mFalse gEq,
   by decide,
   rule_replacement_wholesale.2.1 "sub" _ _ ruleGo ruleOff ruleBoth mFalse gEq
     (by decide),
   by decide,
   rule_replacement_wholesale.2.2 "." "a.py" true [104] [] defaultRootRule
     noRules mFalse gEq (by decide) (by decide) (by decide) (by decide)
     (by decide)⟩

theorem optAppend_some_isSome (l : List FileRec) (b : Option (List FileRec)) :
    (optAppend (some l) b).isSome = b.isSome := by
  cases b <;> rfl

theorem optAppend_none (b : Option (List FileRec)) :
    optAppend none b = none := rfl

/-- C3: force-include semantics.  First conjunct: a file child that
matches an `include` pattern of the active rule, is not hardcode-excluded
and matches no `exclude` pattern is considered for inclusion — the walk
proceeds straight to `appendFileContent` — with the ignore matcher, the
`ExcludeExtensions` block-list and the `Extensions` allow-list all left
completely unconstrained, so an ignored file, a block-listed extension or
an extension missing from a non-empty allow-list cannot stop it.  Second
conjunct: a force-included directory child with no explicit disabled rule
is recursed into with the matcher unconstrained (ignore-matching is
bypassed).  Third conjunct: force-include never bypasses an explicit
`enabled: false` Rule Store entry keyed at the child's exact relative
path — the child is skipped even though its `include` pattern matches. -/
theorem force_include_overrides :
    (∀ (relDir name : String) (okRead : Bool) (content : Bytes)
       (rest : List (String × FSNode)) (rule : DirRule)
       (dirRules : String → Option DirRule) (m : String → Bool → Bool)
       (g : String → String → Bool),
      shouldAlwaysExclude name = false →
      checkPatternMatch g name (joinRel relDir name) rule.Exclude = false →
      checkPatternMatch g name (joinRel relDir name) rule.Include = true →
      walkEntries relDir ((name, FSNode.file okRead content) :: rest) rule dirRules m g
        = optAppend (some (appendFileContent okRead content (joinRel relDir name)))
            (walkEntries relDir rest rule dirRules m g)) ∧
    (∀ (relDir name : String) (listing : Option (List (String × FSNode)))
       (rest : List (String × FSNode)) (rule : DirRule)
       (dirRules : String → Option DirRule) (m : String → Bool → Bool)
       (g : String → String → Bool),
      shouldAlwaysExclude name = false →
      checkPatternMatch g name (joinRel relDir name) rule.Exclude = false →
      checkPatternMatch g name (joinRel relDir name) rule.Include = true →
      (∀ s, dirRules (joinRel relDir name) = some s → s.Enabled = true) →
      walkEntries relDir ((name, FSNode.dir listing) :: rest) rule dirRules m g
        = optAppend (walk (joinRel relDir name) (FSNode.dir listing) dirRules rule m g)
            (walkEntries relDir rest rule dirRules m g)) ∧
    (∀ (relDir name : String) (listing : Option (List (String × FSNode)))
       (rest : List (String × FSNode)) (rule subRule : DirRule)
       (dirRules : String → Option DirRule) (m : String → Bool → Bool)
       (g : String → String → Bool),
      checkPatternMatch g name (joinRel relDir name) rule.Include = true →
      dirRules (joinRel relDir name) = some subRule →
      subRule.Enabled = false →
      walkEntries relDir ((name, FSNode.dir listing) :: rest) rule dirRules m g
        = walkEntries relDir rest rule dirRules m g) := by
  refine ⟨?_, ?_, ?_⟩
  · intro relDir name okRead content rest rule dirRules m g ha hx hf
    rw [walkEntries]
    simp [ha, hx, hf]
  · intro relDir name listing rest rule dirRules m g ha hx hf hsub
    rw [walkEntries]
    rcases hd : dirRules (joinRel relDir name) with _ | s
    · simp [ha, hx, hf, hd]
    · simp [ha, hx, hf, hd, hsub s hd]
  · intro relDir name listing rest rule subRule dirRules m g _hf hs he
    rw [walkEntries]
    by_cases ha : shouldAlwaysExclude name
    · simp [ha]
    · by_cases hx : checkPatternMatch g name (joinRel relDir name) rule.Exclude
      · simp [ha, hx]
      · simp [ha, hx, hs, he]

theorem force_include_overrides_witness :
    shouldAlwaysExclude "x.env" = false ∧
    checkPatternMatch gEq "x.env" (joinRel "." "x.env")
      (DirRule.Exclude ⟨true, ["go"], ["env"], ["x.env"], []⟩) = false ∧
    checkPatternMatch gEq "x.env" (joinRel "." "x.env")
      (DirRule.Include ⟨true, ["go"], ["env"], ["x.env"], []⟩) = true ∧
    walkEntries "." [("x.env", FSNode.file true [65])]
        ⟨true, ["go"], ["env"], ["x.env"], []⟩ noRules mAll gEq
      = optAppend (some (appendFileContent true [65] (joinRel "." "x.env")))
          (walkEntries "." [] ⟨true, ["go"], ["env"], ["x.env"], []⟩ noRules
            mAll gEq) ∧
    walkEntries "." [("sub", FSNode.dir (some []))]
        ⟨true, [], [], ["sub"], []⟩ noRules mAll gEq
      = optAppend (walk (joinRel "." "sub") (FSNode.dir (some [])) noRules
            ⟨true, [], [], ["sub"], []⟩ mAll gEq)
          (walkEntries "." [] ⟨true, [], [], ["sub"], []⟩ noRules mAll gEq) ∧
    walkEntries "." [("sub", FSNode.dir (some []))]
        ⟨true, [], [], ["sub"], []⟩
        (fun k => if k = "sub" then some ruleOff else none) mFalse gEq
      = walkEntries "." [] ⟨true, [], [], ["sub"], []⟩
          (fun k => if k = "sub" then some ruleOff else none) mFalse gEq :=
  ⟨by decide, by decide, by decide,
   force_include_overrides.1 "." "x.env" true [65] [] _ noRules mAll gEq
     (by decide) (by decide) (by decide),
   force_include_overrides.2.1 "." "sub" (some []) [] _ noRules mAll gEq
     (by decide) (by decide) (by decide) (by intro s h; cases h),
   force_include_overrides.2.2 "." "sub" (some []) [] _ ruleOff _ mFalse gEq
     (by decide) (by decide) (by decide)⟩

/-- C6: the error taxonomy.  (i) The only fatal walk error: an enabled
directory whose children cannot be enumerated makes the walk fail.  (ii) A
failing child-directory walk propagates: when the child is not skipped by
any check, the parent walk fails too, aborting everything.  (iii) A file
child never aborts the walk — whether its open/read succeeds or not, the
walk result is defined exactly when the walk of the remaining entries is.
(iv) `Discover` aborts when the root's immediate children cannot be
listed, and (v) succeeds whenever they can.  (vi) During discovery's
extension scanning, a subtree whose listing fails is swallowed — the scan
of the remaining entries continues as if the subtree were absent. -/
theorem error_taxonomy :
    (∀ (relDir : String) (dirRules : String → Option DirRule)
       (inherited : DirRule) (m : String → Bool → Bool)
       (g : String → String → Bool),
      (effectiveRule dirRules relDir inherited).Enabled = true →
      walk relDir (FSNode.dir none) dirRules inherited m g = none) ∧
    (∀ (relDir name : String) (listing : Option (List (String × FSNode)))
       (rest : List (String × FSNode)) (rule : DirRule)
       (dirRules : String → Option DirRule) (m : String → Bool → Bool)
       (g : String → String → Bool),
      shouldAlwaysExclude name = false →
      checkPatternMatch g name (joinRel relDir name) rule.Exclude = false →
      (∀ s, dirRules (joinRel relDir name) = some s → s.Enabled = true) →
      (checkPatternMatch g name (joinRel relDir name) rule.Include = true ∨
        m (joinRel relDir name) true = false) →
      walk (joinRel relDir name) (FSNode.dir listing) dirRules rule m g = none →
      walkEntries relDir ((name, FSNode.dir listing) :: rest) rule dirRules m g
        = none) ∧
    (∀ (relDir name : String) (okRead : Bool) (content : Bytes)
       (rest : List (String × FSNode)) (rule : DirRule)
       (dirRules : String → Option DirRule) (m : String → Bool → Bool)
       (g : String → String → Bool),
      (walkEntries relDir ((name, FSNode.file okRead content) :: rest)
          rule dirRules m g).isSome
        = (walkEntries relDir rest rule dirRules m g).isSome) ∧
    (∀ (existing : Option Config) (m : String → Bool → Bool),
      Discover (FSNode.dir none) existing m = none) ∧
    (∀ (entries : List (String × FSNode)) (existing : Option Config)
       (m : String → Bool → Bool),
      (Discover (FSNode.dir (some entries)) existing m).isSome = true) ∧
    (∀ (rel n : String) (rest : List (String × FSNode))
       (m : String → Bool → Bool),
      deepScanExtensionsList rel ((n, FSNode.dir none) :: rest) m
        = deepScanExtensionsList rel rest m) := by
  refine ⟨?_, ?_, ?_, ?_, ?_, ?_⟩
  · intro relDir dirRules inherited m g he
    rw [walk.eq_def]
    simp [he]
  · intro relDir name listing rest rule dirRules m g ha hx hsub hnotskip hrec
    rw [walkEntries]
    rcases hd : dirRules (joinRel relDir name) with _ | s
    · rcases hnotskip with hf | hm
      · simp [ha, hx, hd, hf, hrec, optAppend_none]
      · simp [ha, hx, hd, hm, hrec, optAppend_none]
    · rcases hnotskip with hf | hm
      · simp [ha, hx, hd, hsub s hd, hf, hrec, optAppend_none]
      · simp [ha, hx, hd, hsub s hd, hm, hrec, optAppend_none]
  · intro relDir name okRead content rest rule dirRules m g
    rw [walkEntries]
    by_cases ha : shouldAlwaysExclude name
    · simp [ha]
    · by_cases hx : checkPatternMatch g name (joinRel relDir name) rule.Exclude
      · simp [ha, hx]
      · by_cases hf : checkPatternMatch g name (joinRel relDir name) rule.Include <;>
        by_cases hm : m (joinRel relDir name) false <;>
        by_cases hbe : rule.ExcludeExtensions.isEmpty <;>
        by_cases hbc : contains rule.ExcludeExtensions (trimDot (goExt name)) <;>
        by_cases hae : rule.Extensions.isEmpty <;>
        by_cases hac : contains rule.Extensions (trimDot (goExt name)) <;>
        simp [ha, hx, hf, hm, hbe, hbc, hae, hac, optAppend_some_isSome]
  · intro existing m
    rfl
  · intro entries existing m
    rfl
  · intro rel n rest m
    rw [deepScanExtensionsList]
    have h0 : deepScanExtensions (joinRel rel n) n (FSNode.dir none) m = [] := by
      rw [deepScanExtensions]
      split <;> simp
    rw [h0, List.nil_append]

theorem error_taxonomy_witness :
    (effectiveRule noRules "." defaultRootRule).Enabled = true ∧
    walk "." (FSNode.dir none) noRules defaultRootRule mFalse gEq = none ∧
    walkEntries "." [("bad", FSNode.dir none)] defaultRootRule noRules mFalse gEq
      = none ∧
    (walkEntries "." [("f.go", FSNode.file false [1])] defaultRootRule noRules
        mFalse gEq).isSome
      = (walkEntries "." [] defaultRootRule noRules mFalse gEq).isSome ∧
    Discover (FSNode.dir none) none mFalse = none ∧
    (Discover (FSNode.dir (some [("a.go", FSNode.file true [104])])) none
        mFalse).isSome = true ∧
    deepScanExtensionsList "." [("bad", FSNode.dir none), ("a.go", FSNode.file true [])]
        mFalse
      = deepScanExtensionsList "." [("a.go", FSNode.file true [])] mFalse :=
  ⟨by decide,
   error_taxonomy.1 "." noRules defaultRootRule mFalse gEq (by decide),
   error_taxonomy.2.1 "." "bad" none [] defaultRootRule noRules mFalse gEq
     (by decide) (by decide) (by intro s h; cases h) (Or.inr (by decide))
     (error_taxonomy.1 (joinRel "." "bad") noRules defaultRootRule mFalse gEq
       (by decide)),
   error_taxonomy.2.2.1 "." "f.go" false [1] [] defaultRootRule noRules mFalse gEq,
   error_taxonomy.2.2.2.1 none mFalse,
   error_taxonomy.2.2.2.2.1 [("a.go", FSNode.file true [104])] none mFalse,
   error_taxonomy.2.2.2.2.2 "." "bad" [("a.go", FSNode.file true [])] mFalse⟩

theorem discoverStep_preserve (m : String → Bool → Bool)
    (dirs : String → Option DirRule) (entry : String × FSNode)
    (k : String) (r : DirRule) (h : dirs k = some r) :
    discoverStep m dirs entry k = some r := by
  by_cases h1 : (!entry.2.isDir || entry.1 == ".git") = true
  · simp [discoverStep, h1, h]
  · by_cases h2 : m entry.1 true = true
    · simp [discoverStep, h1, h2, h]
    · by_cases h3 : (dirs entry.1).isSome = true
      · simp [discoverStep, h1, h2, h3, h]
      · simp only [discoverStep, h1, h2, h3]
        simp only [Bool.false_eq_true, if_false]
        by_cases hk : k == entry.1
        · exfalso
          have hk2 : k = entry.1 := by simpa using hk
          rw [← hk2] at h3
          rw [h] at h3
          exact h3 rfl
        · simp [hk, h]

theorem discover_foldl_preserve (m : String → Bool → Bool) :
    ∀ (entries : List (String × FSNode)) (dirs : String → Option DirRule)
      (k : String) (r : DirRule), dirs k = some r →
      entries.foldl (discoverStep m) dirs k = some r := by
  intro entries
  induction entries with
  | nil => intro dirs k r h; simpa using h
  | cons e rest ih =>
    intro dirs k r h
    rw [List.foldl_cons]
    exact ih _ k r (discoverStep_preserve m dirs e k r h)

theorem discoverRootDirs_ne_root (cfg : Config) (exts : List String)
    (k : String) (hk : k ≠ ".") :
    discoverRootDirs cfg exts k = cfg.Dirs k := by
  unfold discoverRootDirs
  cases h : cfg.Dirs "." with
  | none => simp [hk]
  | some val =>
    by_cases he : val.Extensions.isEmpty
    · simp [he, hk]
    · simp [he]

theorem discoverRootDirs_root_nonempty (cfg : Config) (exts : List String)
    (val : DirRule) (h : cfg.Dirs "." = some val)
    (hne : val.Extensions ≠ []) :
    discoverRootDirs cfg exts "." = some val := by
  unfold discoverRootDirs
  rw [h]
  have he : val.Extensions.isEmpty = false := by
    simpa [List.isEmpty_iff] using hne
  simp [he, h]

theorem discoverRootDirs_root_empty (cfg : Config) (exts : List String)
    (val : DirRule) (h : cfg.Dirs "." = some val)
    (he : val.Extensions = []) :
    discoverRootDirs cfg exts "." = some { val with Extensions := exts } := by
  unfold discoverRootDirs
  rw [h]
  simp [he]

theorem String_mk_length (l : List Char) : (String.mk l).length = l.length := rfl

theorem collectExt_spec : ∀ name : String,
    collectExt name
      = (afterLastDot name).bind (fun t => if t = "" then none else some t) := by
  intro name
  by_cases hdot : name.data.contains '.'
  · have hdotmem : '.' ∈ name.data.reverse := by
      rw [List.mem_reverse]
      simpa using hdot
    have hne : (name.data.reverse.takeWhile (fun c => c ≠ '.')).length
        ≠ name.data.reverse.length := by
      intro hlen
      have hpre := List.takeWhile_prefix (l := name.data.reverse)
        (fun c => decide (c ≠ '.'))
      have heq := hpre.eq_of_length hlen
      have hall := List.takeWhile_eq_self_iff.mp heq
      have := hall '.' hdotmem
      simp at this
    unfold collectExt goExt afterLastDot
    rw [if_neg hne, if_pos hdot]
    by_cases hnil : (name.data.reverse.takeWhile (fun c => c ≠ '.')) = []
    · rw [hnil]
      decide
    · have hpos : 0 < (name.data.reverse.takeWhile (fun c => c ≠ '.')).length :=
        List.length_pos.mpr hnil
      have hgt : (String.mk ('.' ::
          (name.data.reverse.takeWhile (fun c => c ≠ '.')).reverse)).length > 1 := by
        rw [String_mk_length]
        simp only [List.length_cons, List.length_reverse]
        omega
      rw [if_pos hgt]
      have hmk : ¬(String.mk (name.data.reverse.takeWhile (fun c => c ≠ '.')).reverse
          = "") := by
        intro hcon
        have h2 : ((name.data.reverse.takeWhile (fun c => c ≠ '.')).reverse : List Char)
            = ([] : List Char) := congrArg String.data hcon
        exact hnil (by simpa using congrArg List.reverse h2)
      simp only [Option.some_bind]
      rw [if_neg hmk]
      rfl
  · have hall : ∀ a ∈ name.data.reverse, (fun c => decide (c ≠ '.')) a := by
      intro a ha
      have hmem : a ∈ name.data := List.mem_reverse.mp ha
      simp only [decide_eq_true_iff]
      intro hcon
      rw [hcon] at hmem
      exact hdot (by simpa using hmem)
    have heq : name.data.reverse.takeWhile (fun c => c ≠ '.') = name.data.reverse :=
      List.takeWhile_eq_self_iff.mpr hall
    have hcond : (name.data.reverse.takeWhile (fun c => c ≠ '.')).length
        = name.data.reverse.length := by rw [heq]
    unfold collectExt goExt afterLastDot
    rw [if_pos hcond, if_neg hdot]
    decide

mutual
theorem deepScanExtensions_mem : ∀ (node : FSNode) (rel name : String)
    (m : String → Bool → Bool) (e : String),
    e ∈ deepScanExtensions rel name node m → ∃ n, collectExt n = some e
  | .file ok c, rel, name, m, e, h => by
    rw [deepScanExtensions] at h
    by_cases hm : m rel false = true
    · simp [hm] at h
    · rcases hc : collectExt name with _ | v
      · rw [hc] at h
        simp [hm] at h
      · rw [hc] at h
        simp only [hm, Bool.false_eq_true, if_false] at h
        have hev : e = v := by simpa using h
        exact ⟨name, by rw [hc, hev]⟩
  | .dir none, rel, name, m, e, h => by
    rw [deepScanExtensions] at h
    by_cases hg : (name == ".git") = true
    · simp [hg] at h
    · by_cases hm : m rel true = true
      · simp [hg, hm] at h
      · simp [hg, hm] at h
  | .dir (some children), rel, name, m, e, h => by
    rw [deepScanExtensions] at h
    by_cases hg : (name == ".git") = true
    · simp [hg] at h
    · by_cases hm : m rel true = true
      · simp [hg, hm] at h
      · simp only [hg, hm, Bool.false_eq_true, if_false] at h
        exact deepScanExtensionsList_mem children rel m e h

theorem deepScanExtensionsList_mem : ∀ (children : List (String × FSNode))
    (rel : String) (m : String → Bool → Bool) (e : String),
    e ∈ deepScanExtensionsList rel children m → ∃ n, collectExt n = some e
  | [], rel, m, e, h => by
    rw [deepScanExtensionsList] at h
    cases h
  | (n, c) :: rest, rel, m, e, h => by
    rw [deepScanExtensionsList] at h
    rcases List.mem_append.mp h with h1 | h2
    · exact deepScanExtensions_mem c (joinRel rel n) n m e h1
    · exact deepScanExtensionsList_mem rest rel m e h2
end

/-- C8 counterexample: discovery's extension collection contradicts the
claim at the filenames `A.X` and `.bashrc`.  Scanning a tree holding only
`A.X` stores the extension `X` although exactly one character — not more
than one — follows the last dot, and `X` is not lower-cased (`x` differs
from it); scanning a tree holding only `.bashrc` stores `bashrc` although
the name's only dot is its leading one, which the claim says yields no
extension. -/
theorem extension_collection_counterexample :
    deepScanExtensions "." ""
        (FSNode.dir (some [("A.X", FSNode.file true [])])) mFalse = ["X"] ∧
    afterLastDot "A.X" = some "X" ∧
    String.length "X" = 1 ∧
    ("X" : String).data.map Char.toLower = ("x" : String).data ∧
    ("X" : String) ≠ "x" ∧
    deepScanExtensions "." ""
        (FSNode.dir (some [(".bashrc", FSNode.file true [])])) mFalse
      = ["bashrc"] ∧
    (".bashrc" : String).data.head? = some '.' ∧
    ((".bashrc" : String).data.tail.contains '.') = false := by
  refine ⟨by decide, by decide, by decide, ?_, by decide, by decide, by decide,
    by decide⟩
  decide

/-- C8 amended: during discovery's extension collection, a filename yields
an extension exactly when it contains a `'.'` with at least one character
after the last `'.'` — so one character suffices, and a dotfile whose only
dot is the leading one (e.g. `.bashrc`) yields the rest of its name —
namely the after-last-dot tail itself, with the leading dot removed but in
its original case, not lower-cased (first conjunct, phrased against the
spec-side `afterLastDot`); and every extension stored into a discovered
rule arises this way from some scanned filename (second conjunct). -/
theorem extension_collection_amended :
    (∀ name : String,
      collectExt name
        = (afterLastDot name).bind (fun t => if t = "" then none else some t)) ∧
    (∀ (node : FSNode) (rel name : String) (m : String → Bool → Bool)
       (e : String),
      e ∈ deepScanExtensions rel name node m → ∃ n, collectExt n = some e) :=
  ⟨collectExt_spec, deepScanExtensions_mem⟩

theorem extension_collection_amended_witness :
    collectExt "a.go"
      = (afterLastDot "a.go").bind (fun t => if t = "" then none else some t) ∧
    "go" ∈ deepScanExtensions "." ""
        (FSNode.dir (some [("a.go", FSNode.file true [])])) mFalse ∧
    (∃ n, collectExt n = some "go") :=
  ⟨extension_collection_amended.1 "a.go",
   by decide,
   extension_collection_amended.2
     (FSNode.dir (some [("a.go", FSNode.file true [])])) "." "" mFalse "go"
     (by decide)⟩

/-- C5: the frame property of discovery over a pre-existing Rule Store.
When `Discover` succeeds: every existing entry at a key other than `"."`,
and the root entry itself when its extension list is non-empty, reappears
unchanged in the result (existing keys are never overwritten); a root
entry with an empty extension list reappears with only its `Extensions`
field replaced by the deep-scanned union, every other field intact; and
the configured output filename is untouched. -/
theorem discover_preserves_existing :
    ∀ (rootNode : FSNode) (cfg cfg2 : Config) (m : String → Bool → Bool),
      Discover rootNode (some cfg) m = some cfg2 →
      (∀ k r, cfg.Dirs k = some r → ¬(k = "." ∧ r.Extensions = []) →
        cfg2.Dirs k = some r) ∧
      (∀ r, cfg.Dirs "." = some r → r.Extensions = [] →
        cfg2.Dirs "."
          = some { r with Extensions := deepScanExtensions "." "" rootNode m }) ∧
      cfg2.OutputFile = cfg.OutputFile := by
  intro rootNode cfg cfg2 m h
  cases rootNode with
  | file ok c => simp [Discover] at h
  | dir listing =>
    cases listing with
    | none => simp [Discover] at h
    | some entries =>
      simp only [Discover] at h
      injection h with h
      subst h
      refine ⟨?_, ?_, rfl⟩
      · intro k r hk hne
        by_cases hroot : k = "."
        · subst hroot
          have hr : r.Extensions ≠ [] := by
            intro hcon
            exact hne ⟨rfl, hcon⟩
          exact discover_foldl_preserve m entries _ "." r
            (discoverRootDirs_root_nonempty cfg _ r hk hr)
        · exact discover_foldl_preserve m entries _ k r
            ((discoverRootDirs_ne_root cfg _ k hroot).trans hk)
      · intro r hk he
        exact discover_foldl_preserve m entries _ "." _
          (discoverRootDirs_root_empty cfg _ r hk he)

theorem discover_preserves_existing_witness :
    Discover rootW (some cfgW) mFalse = some discoveredW ∧
    cfgW.Dirs "keep" = some ruleGo ∧
    discoveredW.Dirs "keep" = some ruleGo ∧
    cfgW.Dirs "." = some ⟨true, [], ["log"], [], []⟩ ∧
    discoveredW.Dirs "."
      = some ⟨true, deepScanExtensions "." "" rootW mFalse, ["log"], [], []⟩ ∧
    discoveredW.Dirs "new" = some ⟨true, ["ts"], [], [], []⟩ ∧
    discoveredW.OutputFile = cfgW.OutputFile :=
  ⟨rfl,
   by decide,
   (discover_preserves_existing rootW cfgW discoveredW mFalse rfl).1 "keep"
     ruleGo (by decide) (by simp),
   by decide,
   (discover_preserves_existing rootW cfgW discoveredW mFalse rfl).2.1
     ⟨true, [], ["log"], [], []⟩ (by decide) (by decide),
   by decide,
   (discover_preserves_existing rootW cfgW discoveredW mFalse rfl).2.2⟩


theorem utf8_encode2 (b c1 : Nat) (hb1 : 0xC2 ≤ b) (hb2 : b ≤ 0xDF)
    (hc1 : 0x80 ≤ c1) (hc2 : c1 ≤ 0xBF) :
    IsScalar ((b - 0xC0) * 64 + (c1 - 0x80)) ∧
    encodeUtf8 ((b - 0xC0) * 64 + (c1 - 0x80)) = [b, c1] := by
  refine ⟨⟨by omega, by omega⟩, ?_⟩
  unfold encodeUtf8
  rw [if_neg (by omega), if_pos (by omega)]
  have e1 : 0xC0 + ((b - 0xC0) * 64 + (c1 - 0x80)) / 64 = b := by omega
  have e2 : 0x80 + ((b - 0xC0) * 64 + (c1 - 0x80)) % 64 = c1 := by omega
  rw [e1, e2]

theorem utf8_encode3 (b c1 c2 : Nat) (hb1 : 0xE0 ≤ b) (hb2 : b ≤ 0xEF)
    (hc1 : 0x80 ≤ c1) (hc2 : c1 ≤ 0xBF) (hd1 : 0x80 ≤ c2) (hd2 : c2 ≤ 0xBF)
    (hlo : 0x800 ≤ (b - 0xE0) * 4096 + (c1 - 0x80) * 64 + (c2 - 0x80))
    (hs : (b - 0xE0) * 4096 + (c1 - 0x80) * 64 + (c2 - 0x80) < 0xD800 ∨
          0xDFFF < (b - 0xE0) * 4096 + (c1 - 0x80) * 64 + (c2 - 0x80)) :
    IsScalar ((b - 0xE0) * 4096 + (c1 - 0x80) * 64 + (c2 - 0x80)) ∧
    encodeUtf8 ((b - 0xE0) * 4096 + (c1 - 0x80) * 64 + (c2 - 0x80))
      = [b, c1, c2] := by
  refine ⟨⟨by omega, by omega⟩, ?_⟩
  unfold encodeUtf8
  rw [if_neg (by omega), if_neg (by omega), if_pos (by omega)]
  have e1 : 0xE0 + ((b - 0xE0) * 4096 + (c1 - 0x80) * 64 + (c2 - 0x80)) / 4096 = b := by
    omega
  have e2 : 0x80 + ((b - 0xE0) * 4096 + (c1 - 0x80) * 64 + (c2 - 0x80)) / 64 % 64 = c1 := by
    omega
  have e3 : 0x80 + ((b - 0xE0) * 4096 + (c1 - 0x80) * 64 + (c2 - 0x80)) % 64 = c2 := by
    omega
  rw [e1, e2, e3]

theorem utf8_encode4 (b c1 c2 c3 : Nat) (hb1 : 0xF0 ≤ b) (hb2 : b ≤ 0xF4)
    (hc1 : 0x80 ≤ c1) (hc2 : c1 ≤ 0xBF) (hd1 : 0x80 ≤ c2) (hd2 : c2 ≤ 0xBF)
    (he1 : 0x80 ≤ c3) (he2 : c3 ≤ 0xBF)
    (hlo : 0x10000 ≤ (b - 0xF0) * 262144 + (c1 - 0x80) * 4096 + (c2 - 0x80) * 64 + (c3 - 0x80))
    (hhi : (b - 0xF0) * 262144 + (c1 - 0x80) * 4096 + (c2 - 0x80) * 64 + (c3 - 0x80) < 0x110000) :
    IsScalar ((b - 0xF0) * 262144 + (c1 - 0x80) * 4096 + (c2 - 0x80) * 64 + (c3 - 0x80)) ∧
    encodeUtf8 ((b - 0xF0) * 262144 + (c1 - 0x80) * 4096 + (c2 - 0x80) * 64 + (c3 - 0x80))
      = [b, c1, c2, c3] := by
  refine ⟨⟨by omega, by omega⟩, ?_⟩
  unfold encodeUtf8
  rw [if_neg (by omega), if_neg (by omega), if_neg (by omega)]
  have e1 : 0xF0 + ((b - 0xF0) * 262144 + (c1 - 0x80) * 4096 + (c2 - 0x80) * 64 + (c3 - 0x80)) / 262144 = b := by
    omega
  have e2 : 0x80 + ((b - 0xF0) * 262144 + (c1 - 0x80) * 4096 + (c2 - 0x80) * 64 + (c3 - 0x80)) / 4096 % 64 = c1 := by
    omega
  have e3 : 0x80 + ((b - 0xF0) * 262144 + (c1 - 0x80) * 4096 + (c2 - 0x80) * 64 + (c3 - 0x80)) / 64 % 64 = c2 := by
    omega
  have e4 : 0x80 + ((b - 0xF0) * 262144 + (c1 - 0x80) * 4096 + (c2 - 0x80) * 64 + (c3 - 0x80)) % 64 = c3 := by
    omega
  rw [e1, e2, e3, e4]


theorem utf8Encoding_of_valid (l : Bytes) (h : utf8Valid l = true) : Utf8Encoding l := by
  suffices H : ∀ (k : Nat) (l2 : Bytes), l2.length ≤ k → utf8Valid l2 = true →
      Utf8Encoding l2 by
    exact H l.length l le_rfl h
  intro k
  induction k with
  | zero =>
    intro l2 hl h2
    cases l2 with
    | nil => exact .nil
    | cons b rest => simp at hl
  | succ k ih =>
    intro l2 hl h2
    cases l2 with
    | nil => exact .nil
    | cons b rest =>
      simp only [List.length_cons] at hl
      rw [utf8Valid] at h2
      by_cases h1 : b < 0x80
      · rw [if_pos h1] at h2
        have henc : encodeUtf8 b = [b] := by
          unfold encodeUtf8; rw [if_pos h1]
        have hfin := Utf8Encoding.cons b rest ⟨by omega, by omega⟩ (ih rest (by omega) h2)
        rw [henc] at hfin
        exact hfin
      · rw [if_neg h1] at h2
        by_cases hc2 : (0xC2 ≤ b && b ≤ 0xDF) = true
        · rw [if_pos hc2] at h2
          simp only [Bool.and_eq_true, decide_eq_true_iff] at hc2
          cases rest with
          | nil => rw [utf8Cont1] at h2; exact absurd h2 (by simp)
          | cons c1 rest2 =>
            rw [utf8Cont1] at h2
            simp only [Bool.and_eq_true, decide_eq_true_iff] at h2
            obtain ⟨⟨hk1, hk2⟩, hv⟩ := h2
            obtain ⟨hscal, henc⟩ := utf8_encode2 b c1 hc2.1 hc2.2 hk1 hk2
            have hfin := Utf8Encoding.cons _ rest2 hscal
              (ih rest2 (by simp at hl; omega) hv)
            rw [henc] at hfin
            exact hfin
        · rw [if_neg hc2] at h2
          by_cases hc3 : (b == 0xE0) = true
          · rw [if_pos hc3] at h2
            have hb : b = 0xE0 := by simpa using hc3
            cases rest with
            | nil => rw [utf8Cont2] at h2; exact absurd h2 (by simp)
            | cons c1 rest1 =>
              rw [utf8Cont2] at h2
              cases rest1 with
              | nil =>
                rw [utf8Cont1] at h2
                exact absurd h2 (by simp)
              | cons c2 rest2 =>
                rw [utf8Cont1] at h2
                simp only [Bool.and_eq_true, decide_eq_true_iff] at h2
                obtain ⟨⟨ha1, ha2⟩, ⟨hk1, hk2⟩, hv⟩ := h2
                obtain ⟨hscal, henc⟩ := utf8_encode3 b c1 c2 (by omega) (by omega)
                  (by omega) (by omega) hk1 hk2 (by omega) (by omega)
                have hfin := Utf8Encoding.cons _ rest2 hscal
                  (ih rest2 (by simp at hl; omega) hv)
                rw [henc] at hfin
                exact hfin
          · rw [if_neg hc3] at h2
            by_cases hc4 : ((0xE1 ≤ b && b ≤ 0xEC) || b == 0xEE || b == 0xEF) = true
            · rw [if_pos hc4] at h2
              have hbb : ((0xE1 ≤ b ∧ b ≤ 0xEC) ∨ b = 0xEE) ∨ b = 0xEF := by
                simpa [Bool.or_eq_true, Bool.and_eq_true, beq_iff_eq] using hc4
              cases rest with
              | nil => rw [utf8Cont2] at h2; exact absurd h2 (by simp)
              | cons c1 rest1 =>
                rw [utf8Cont2] at h2
                cases rest1 with
                | nil =>
                  rw [utf8Cont1] at h2
                  exact absurd h2 (by simp)
                | cons c2 rest2 =>
                  rw [utf8Cont1] at h2
                  simp only [Bool.and_eq_true, decide_eq_true_iff] at h2
                  obtain ⟨⟨ha1, ha2⟩, ⟨hk1, hk2⟩, hv⟩ := h2
                  obtain ⟨hscal, henc⟩ := utf8_encode3 b c1 c2 (by omega) (by omega)
                    ha1 ha2 hk1 hk2 (by omega) (by omega)
                  have hfin := Utf8Encoding.cons _ rest2 hscal
                    (ih rest2 (by simp at hl; omega) hv)
                  rw [henc] at hfin
                  exact hfin
            · rw [if_neg hc4] at h2
              by_cases hc5 : (b == 0xED) = true
              · rw [if_pos hc5] at h2
                have hb : b = 0xED := by simpa using hc5
                cases rest with
                | nil => rw [utf8Cont2] at h2; exact absurd h2 (by simp)
                | cons c1 rest1 =>
                  rw [utf8Cont2] at h2
                  cases rest1 with
                  | nil =>
                    rw [utf8Cont1] at h2
                    exact absurd h2 (by simp)
                  | cons c2 rest2 =>
                    rw [utf8Cont1] at h2
                    simp only [Bool.and_eq_true, decide_eq_true_iff] at h2
                    obtain ⟨⟨ha1, ha2⟩, ⟨hk1, hk2⟩, hv⟩ := h2
                    obtain ⟨hscal, henc⟩ := utf8_encode3 b c1 c2 (by omega) (by omega)
                      (by omega) (by omega) hk1 hk2 (by omega) (by omega)
                    have hfin := Utf8Encoding.cons _ rest2 hscal
                      (ih rest2 (by simp at hl; omega) hv)
                    rw [henc] at hfin
                    exact hfin
              · rw [if_neg hc5] at h2
                by_cases hc6 : (b == 0xF0) = true
                · rw [if_pos hc6] at h2
                  have hb : b = 0xF0 := by simpa using hc6
                  cases rest with
                  | nil => rw [utf8Cont3] at h2; exact absurd h2 (by simp)
                  | cons c1 rest1 =>
                    rw [utf8Cont3] at h2
                    cases rest1 with
                    | nil =>
                      rw [utf8Cont2] at h2
                      exact absurd h2 (by simp)
                    | cons c2 rest1b =>
                      rw [utf8Cont2] at h2
                      cases rest1b with
                      | nil =>
                        rw [utf8Cont1] at h2
                        exact absurd h2 (by simp)
                      | cons c3 rest2 =>
                        rw [utf8Cont1] at h2
                        simp only [Bool.and_eq_true, decide_eq_true_iff] at h2
                        obtain ⟨⟨ha1, ha2⟩, ⟨hk1, hk2⟩, ⟨hm1, hm2⟩, hv⟩ := h2
                        obtain ⟨hscal, henc⟩ := utf8_encode4 b c1 c2 c3 (by omega)
                          (by omega) (by omega) (by omega) hk1 hk2 hm1 hm2
                          (by omega) (by omega)
                        have hfin := Utf8Encoding.cons _ rest2 hscal
                          (ih rest2 (by simp at hl; omega) hv)
                        rw [henc] at hfin
                        exact hfin
                · rw [if_neg hc6] at h2
                  by_cases hc7 : (0xF1 ≤ b && b ≤ 0xF3) = true
                  · rw [if_pos hc7] at h2
                    simp only [Bool.and_eq_true, decide_eq_true_iff] at hc7
                    cases rest with
                    | nil => rw [utf8Cont3] at h2; exact absurd h2 (by simp)
                    | cons c1 rest1 =>
                      rw [utf8Cont3] at h2
                      cases rest1 with
                      | nil =>
                        rw [utf8Cont2] at h2
                        exact absurd h2 (by simp)
                      | cons c2 rest1b =>
                        rw [utf8Cont2] at h2
                        cases rest1b with
                        | nil =>
                          rw [utf8Cont1] at h2
                          exact absurd h2 (by simp)
                        | cons c3 rest2 =>
                          rw [utf8Cont1] at h2
                          simp only [Bool.and_eq_true, decide_eq_true_iff] at h2
                          obtain ⟨⟨ha1, ha2⟩, ⟨hk1, hk2⟩, ⟨hm1, hm2⟩, hv⟩ := h2
                          obtain ⟨hscal, henc⟩ := utf8_encode4 b c1 c2 c3 (by omega)
                            (by omega) ha1 ha2 hk1 hk2 hm1 hm2 (by omega) (by omega)
                          have hfin := Utf8Encoding.cons _ rest2 hscal
                            (ih rest2 (by simp at hl; omega) hv)
                          rw [henc] at hfin
                          exact hfin
                  · rw [if_neg hc7] at h2
                    by_cases hc8 : (b == 0xF4) = true
                    · rw [if_pos hc8] at h2
                      have hb : b = 0xF4 := by simpa using hc8
                      cases rest with
                      | nil => rw [utf8Cont3] at h2; exact absurd h2 (by simp)
                      | cons c1 rest1 =>
                        rw [utf8Cont3] at h2
                        cases rest1 with
                        | nil =>
                          rw [utf8Cont2] at h2
                          exact absurd h2 (by simp)
                        | cons c2 rest1b =>
                          rw [utf8Cont2] at h2
                          cases rest1b with
                          | nil =>
                            rw [utf8Cont1] at h2
                            exact absurd h2 (by simp)
                          | cons c3 rest2 =>
                            rw [utf8Cont1] at h2
                            simp only [Bool.and_eq_true, decide_eq_true_iff] at h2
                            obtain ⟨⟨ha1, ha2⟩, ⟨hk1, hk2⟩, ⟨hm1, hm2⟩, hv⟩ := h2
                            obtain ⟨hscal, henc⟩ := utf8_encode4 b c1 c2 c3 (by omega)
                              (by omega) (by omega) (by omega) hk1 hk2 hm1 hm2
                              (by omega) (by omega)
                            have hfin := Utf8Encoding.cons _ rest2 hscal
                              (ih rest2 (by simp at hl; omega) hv)
                            rw [henc] at hfin
                            exact hfin
                    · rw [if_neg hc8] at h2
                      exact absurd h2 (by simp)


theorem valid_of_utf8Encoding (l : Bytes) (h : Utf8Encoding l) :
    utf8Valid l = true := by
  induction h with
  | nil => rfl
  | cons n rest hscal hrest ih =>
    obtain ⟨hlt, hsur⟩ := hscal
    by_cases h1 : n < 0x80
    · have henc : encodeUtf8 n = [n] := by
        unfold encodeUtf8; rw [if_pos h1]
      rw [henc, List.cons_append, List.nil_append, utf8Valid, if_pos h1]
      exact ih
    · by_cases h2 : n < 0x800
      · have henc : encodeUtf8 n = [0xC0 + n / 64, 0x80 + n % 64] := by
          unfold encodeUtf8; rw [if_neg h1, if_pos h2]
        rw [henc]
        simp only [List.cons_append, List.nil_append]
        rw [utf8Valid, if_neg (by omega),
          if_pos (show (0xC2 ≤ 0xC0 + n / 64 && 0xC0 + n / 64 ≤ 0xDF) = true by
            simp only [Bool.and_eq_true, decide_eq_true_iff]; omega)]
        rw [utf8Cont1]
        simp only [Bool.and_eq_true, decide_eq_true_iff]
        exact ⟨⟨by omega, by omega⟩, ih⟩
      · by_cases h3 : n < 0x10000
        · have henc : encodeUtf8 n
              = [0xE0 + n / 4096, 0x80 + n / 64 % 64, 0x80 + n % 64] := by
            unfold encodeUtf8; rw [if_neg h1, if_neg h2, if_pos h3]
          rw [henc]
          simp only [List.cons_append, List.nil_append]
          rw [utf8Valid, if_neg (by omega),
            if_neg (show ¬(0xC2 ≤ 0xE0 + n / 4096 && 0xE0 + n / 4096 ≤ 0xDF) = true by
              simp only [Bool.and_eq_true, decide_eq_true_iff]; omega)]
          by_cases hA : n < 0x1000
          · rw [if_pos (show (0xE0 + n / 4096 == 0xE0) = true by
              simp only [beq_iff_eq]; omega)]
            rw [utf8Cont2]
            simp only [Bool.and_eq_true, decide_eq_true_iff]
            refine ⟨⟨by omega, by omega⟩, ?_⟩
            rw [utf8Cont1]
            simp only [Bool.and_eq_true, decide_eq_true_iff]
            exact ⟨⟨by omega, by omega⟩, ih⟩
          · rw [if_neg (show ¬(0xE0 + n / 4096 == 0xE0) = true by
              simp only [beq_iff_eq]; omega)]
            by_cases hB : n < 0xD000
            · rw [if_pos (show ((0xE1 ≤ 0xE0 + n / 4096 && 0xE0 + n / 4096 ≤ 0xEC)
                  || 0xE0 + n / 4096 == 0xEE || 0xE0 + n / 4096 == 0xEF) = true by
                simp only [Bool.or_eq_true, Bool.and_eq_true, decide_eq_true_iff,
                  beq_iff_eq]
                omega)]
              rw [utf8Cont2]
              simp only [Bool.and_eq_true, decide_eq_true_iff]
              refine ⟨⟨by omega, by omega⟩, ?_⟩
              rw [utf8Cont1]
              simp only [Bool.and_eq_true, decide_eq_true_iff]
              exact ⟨⟨by omega, by omega⟩, ih⟩
            · by_cases hC : n < 0xE000
              · rw [if_neg (show ¬((0xE1 ≤ 0xE0 + n / 4096 && 0xE0 + n / 4096 ≤ 0xEC)
                    || 0xE0 + n / 4096 == 0xEE || 0xE0 + n / 4096 == 0xEF) = true by
                  simp only [Bool.or_eq_true, Bool.and_eq_true, decide_eq_true_iff,
                    beq_iff_eq]
                  omega)]
                rw [if_pos (show (0xE0 + n / 4096 == 0xED) = true by
                  simp only [beq_iff_eq]; omega)]
                rw [utf8Cont2]
                simp only [Bool.and_eq_true, decide_eq_true_iff]
                refine ⟨⟨by omega, by omega⟩, ?_⟩
                rw [utf8Cont1]
                simp only [Bool.and_eq_true, decide_eq_true_iff]
                exact ⟨⟨by omega, by omega⟩, ih⟩
              · rw [if_pos (show ((0xE1 ≤ 0xE0 + n / 4096 && 0xE0 + n / 4096 ≤ 0xEC)
                    || 0xE0 + n / 4096 == 0xEE || 0xE0 + n / 4096 == 0xEF) = true by
                  simp only [Bool.or_eq_true, Bool.and_eq_true, decide_eq_true_iff,
                    beq_iff_eq]
                  omega)]
                rw [utf8Cont2]
                simp only [Bool.and_eq_true, decide_eq_true_iff]
                refine ⟨⟨by omega, by omega⟩, ?_⟩
                rw [utf8Cont1]
                simp only [Bool.and_eq_true, decide_eq_true_iff]
                exact ⟨⟨by omega, by omega⟩, ih⟩
        · have henc : encodeUtf8 n
              = [0xF0 + n / 262144, 0x80 + n / 4096 % 64, 0x80 + n / 64 % 64,
                 0x80 + n % 64] := by
            unfold encodeUtf8; rw [if_neg h1, if_neg h2, if_neg h3]
          rw [henc]
          simp only [List.cons_append, List.nil_append]
          rw [utf8Valid, if_neg (by omega),
            if_neg (show ¬(0xC2 ≤ 0xF0 + n / 262144 && 0xF0 + n / 262144 ≤ 0xDF) = true by
              simp only [Bool.and_eq_true, decide_eq_true_iff]; omega),
            if_neg (show ¬(0xF0 + n / 262144 == 0xE0) = true by
              simp only [beq_iff_eq]; omega),
            if_neg (show ¬((0xE1 ≤ 0xF0 + n / 262144 && 0xF0 + n / 262144 ≤ 0xEC)
                || 0xF0 + n / 262144 == 0xEE || 0xF0 + n / 262144 == 0xEF) = true by
              simp only [Bool.or_eq_true, Bool.and_eq_true, decide_eq_true_iff,
                beq_iff_eq]
              omega),
            if_neg (show ¬(0xF0 + n / 262144 == 0xED) = true by
              simp only [beq_iff_eq]; omega)]
          by_cases hA : n < 0x40000
          · rw [if_pos (show (0xF0 + n / 262144 == 0xF0) = true by
              simp only [beq_iff_eq]; omega)]
            rw [utf8Cont3]
            simp only [Bool.and_eq_true, decide_eq_true_iff]
            refine ⟨⟨by omega, by omega⟩, ?_⟩
            rw [utf8Cont2]
            simp only [Bool.and_eq_true, decide_eq_true_iff]
            refine ⟨⟨by omega, by omega⟩, ?_⟩
            rw [utf8Cont1]
            simp only [Bool.and_eq_true, decide_eq_true_iff]
            exact ⟨⟨by omega, by omega⟩, ih⟩
          · rw [if_neg (show ¬(0xF0 + n / 262144 == 0xF0) = true by
              simp only [beq_iff_eq]; omega)]
            by_cases hB : n < 0x100000
            · rw [if_pos (show (0xF1 ≤ 0xF0 + n / 262144 && 0xF0 + n / 262144 ≤ 0xF3) = true by
                simp only [Bool.and_eq_true, decide_eq_true_iff]; omega)]
              rw [utf8Cont3]
              simp only [Bool.and_eq_true, decide_eq_true_iff]
              refine ⟨⟨by omega, by omega⟩, ?_⟩
              rw [utf8Cont2]
              simp only [Bool.and_eq_true, decide_eq_true_iff]
              refine ⟨⟨by omega, by omega⟩, ?_⟩
              rw [utf8Cont1]
              simp only [Bool.and_eq_true, decide_eq_true_iff]
              exact ⟨⟨by omega, by omega⟩, ih⟩
            · rw [if_neg (show ¬(0xF1 ≤ 0xF0 + n / 262144 && 0xF0 + n / 262144 ≤ 0xF3) = true by
                simp only [Bool.and_eq_true, decide_eq_true_iff]; omega)]
              rw [if_pos (show (0xF0 + n / 262144 == 0xF4) = true by
                simp only [beq_iff_eq]; omega)]
              rw [utf8Cont3]
              simp only [Bool.and_eq_true, decide_eq_true_iff]
              refine ⟨⟨by omega, by omega⟩, ?_⟩
              rw [utf8Cont2]
              simp only [Bool.and_eq_true, decide_eq_true_iff]
              refine ⟨⟨by omega, by omega⟩, ?_⟩
              rw [utf8Cont1]
              simp only [Bool.and_eq_true, decide_eq_true_iff]
              exact ⟨⟨by omega, by omega⟩, ih⟩


/-- C7: the binary classifier.  First conjunct: `IsBinary` depends on at
most the first 512 bytes of the file — two contents agreeing on their
512-byte prefix classify identically.  Second conjunct: on a readable
file it reports binary exactly when those bytes contain a NUL byte or are
not valid UTF-8 (for the empty prefix both tests pass, so this also gives
the zero-length case).  Third conjunct: a zero-length file is classified
text.  Fourth conjunct: a file classified binary is silently excluded —
`appendFileContent` emits nothing and returns no error.  Fifth conjunct:
the ported `utf8Valid` check coincides with the declarative Unicode
notion of valid UTF-8 — a concatenation of standard encodings of Unicode
scalar values. -/
theorem binary_classifier :
    (∀ (ok : Bool) (c1 c2 : Bytes), c1.take 512 = c2.take 512 →
      IsBinary ok c1 = IsBinary ok c2) ∧
    (∀ c : Bytes, IsBinary true c
        = .ok (hasNul (c.take 512) || !utf8Valid (c.take 512))) ∧
    IsBinary true [] = .ok false ∧
    (∀ (ok : Bool) (c : Bytes) (rel : String),
      IsBinary ok c = .ok true → appendFileContent ok c rel = []) ∧
    (∀ c : Bytes, utf8Valid c = true ↔ Utf8Encoding c) := by
  refine ⟨?_, ?_, rfl, ?_, ?_⟩
  · intro ok c1 c2 h
    unfold IsBinary
    rw [h]
  · intro c
    unfold IsBinary
    by_cases hlen : (c.take 512).length = 0
    · have h0 : c.take 512 = [] := List.length_eq_zero.mp hlen
      rw [h0]
      rfl
    · rw [if_neg (by simp)]
      rw [if_neg hlen]
      by_cases hnul : hasNul (c.take 512)
      · simp [hnul]
      · by_cases hv : utf8Valid (c.take 512)
        · simp [hnul, hv]
        · simp [hnul, hv]
  · intro ok c rel h
    unfold appendFileContent
    rw [h]
  · intro c
    exact ⟨utf8Encoding_of_valid c, valid_of_utf8Encoding c⟩

set_option maxRecDepth 4000 in
theorem binary_classifier_witness :
    List.take 512 (List.replicate 512 65 ++ [0] : Bytes)
      = List.take 512 (List.replicate 512 65 ++ [66] : Bytes) ∧
    IsBinary true (List.replicate 512 65 ++ [0])
      = IsBinary true (List.replicate 512 65 ++ [66]) ∧
    IsBinary true [72, 105]
      = .ok (hasNul (List.take 512 [72, 105])
          || !utf8Valid (List.take 512 [72, 105])) ∧
    IsBinary true [0] = Except.ok true ∧
    appendFileContent true [0] "f.bin" = [] ∧
    (utf8Valid [0xE4, 0xB8, 0x96] = true) ∧
    Utf8Encoding [0xE4, 0xB8, 0x96] :=
  ⟨by decide,
   binary_classifier.1 true (List.replicate 512 65 ++ [0])
     (List.replicate 512 65 ++ [66]) (by decide),
   binary_classifier.2.1 [72, 105],
   rfl,
   binary_classifier.2.2.2.1 true [0] "f.bin" rfl,
   by decide,
   (binary_classifier.2.2.2.2 [0xE4, 0xB8, 0x96]).mp (by decide)⟩

/-- C9: the hardcoded exclusion names are wired to the literal strings
`.git`, `textify.yaml` and `codebase.txt`, not to the configuration.
With `OutputFile` configured to `context_for_ai.txt`, the walk does not
skip the configured output filename — it emits `context_for_ai.txt` as an
ordinary record — while still skipping the literal `codebase.txt`; and
`Scan` is entirely insensitive to the `OutputFile` field (last conjunct),
contradicting the claimed parameterisation (and the repository README's
statement that the defined `output_file` is always ignored). -/
theorem hardcoded_exclusions_not_parameterized :
    shouldAlwaysExclude "context_for_ai.txt" = false ∧
    shouldAlwaysExclude "codebase.txt" = true ∧
    Scan (FSNode.dir (some
          [("codebase.txt", FSNode.file true [104]),
           ("context_for_ai.txt", FSNode.file true [104])]))
        ⟨"context_for_ai.txt", noRules⟩ mFalse gEq
      = some [⟨"context_for_ai.txt", [104]⟩] ∧
    (∀ (node : FSNode) (o1 o2 : String) (dirs : String → Option DirRule)
       (m : String → Bool → Bool) (g : String → String → Bool),
      Scan node ⟨o1, dirs⟩ m g = Scan node ⟨o2, dirs⟩ m g) :=
  ⟨by decide, by decide, by decide, fun _ _ _ _ _ _ => rfl⟩

/-- C10: when the Rule Store lacks a root `"."` entry, `Scan` neither
fails nor skips anything: it walks the tree under a default active root
rule (first conjunct) that is enabled with an empty extension allow-list
and no other restriction (middle conjuncts), under which every file child
that is not hardcode-excluded and not reported ignored by the matcher is
appended — whatever its extension, the store, or the glob oracle (last
conjunct). -/
theorem scan_missing_root_rule_defaults :
    (∀ (node : FSNode) (o : String) (dirs : String → Option DirRule)
       (m : String → Bool → Bool) (g : String → String → Bool),
      dirs "." = none →
      Scan node ⟨o, dirs⟩ m g = walk "." node dirs defaultRootRule m g) ∧
    defaultRootRule.Enabled = true ∧
    defaultRootRule.Extensions = [] ∧
    (∀ (relDir name : String) (okRead : Bool) (content : Bytes)
       (rest : List (String × FSNode)) (dirs : String → Option DirRule)
       (m : String → Bool → Bool) (g : String → String → Bool),
      shouldAlwaysExclude name = false →
      m (joinRel relDir name) false = false →
      walkEntries relDir ((name, FSNode.file okRead content) :: rest)
          defaultRootRule dirs m g
        = optAppend (some (appendFileContent okRead content (joinRel relDir name)))
            (walkEntries relDir rest defaultRootRule dirs m g)) := by
  refine ⟨?_, rfl, rfl, ?_⟩
  · intro node o dirs m g h
    unfold Scan
    simp [h]
  · intro relDir name okRead content rest dirs m g ha hm
    rw [walkEntries]
    simp [ha, hm, checkPatternMatch, defaultRootRule, contains]

theorem scan_missing_root_rule_defaults_witness :
    noRules "." = none ∧
    Scan (.dir (some [("a.py", .file true [104])])) ⟨"out.txt", noRules⟩
        mFalse gEq
      = walk "." (.dir (some [("a.py", .file true [104])])) noRules
          defaultRootRule mFalse gEq ∧
    shouldAlwaysExclude "a.py" = false ∧
    mFalse (joinRel "." "a.py") false = false ∧
    walkEntries "." [("a.py", FSNode.file true [104])] defaultRootRule noRules
        mFalse gEq
      = optAppend (some (appendFileContent true [104] (joinRel "." "a.py")))
          (walkEntries "." [] defaultRootRule noRules mFalse gEq) :=
  ⟨by decide,
   scan_missing_root_rule_defaults.1 _ "out.txt" noRules mFalse gEq (by decide),
   by decide, by decide,
   scan_missing_root_rule_defaults.2.2.2 "." "a.py" true [104] [] noRules
     mFalse gEq (by decide) (by decide)⟩

end Textify
